import Mathlib

/-!
Verification development for the jiraflow repository.

Strings are modeled as rune lists (`List Char`); Go byte lengths and byte
indices coincide with rune counts on the ASCII data handled by the theorems
below.  Fallible Go functions returning `error` are modeled with `Option`.
-/

namespace JiraFlow

/-- Convert a Lean string literal to the rune-list representation. -/
def str (s : String) : List Char := s.data

/-- Character class `A-Z` (ASCII codes 65-90). -/
def isAsciiUpper (c : Char) : Bool := 65 ≤ c.toNat && c.toNat ≤ 90

/-- Character class `a-z` (ASCII codes 97-122). -/
def isAsciiLower (c : Char) : Bool := 97 ≤ c.toNat && c.toNat ≤ 122

/-- Character class `0-9` (ASCII codes 48-57). -/
def isAsciiDigit (c : Char) : Bool := 48 ≤ c.toNat && c.toNat ≤ 57

/-- Character class `[A-Z0-9]` used by the ticket regex. -/
def isUpperOrDigit (c : Char) : Bool := isAsciiUpper c || isAsciiDigit c

/-- Character class `[a-zA-Z0-9]`. -/
def isAsciiAlnum (c : Char) : Bool := isAsciiLower c || isAsciiUpper c || isAsciiDigit c

/-- Go `unicode.IsSpace`: ASCII whitespace `\t \n \v \f \r ' '` plus the
Unicode space characters U+0085, U+00A0, U+1680, U+2000..U+200A, U+2028,
U+2029, U+202F, U+205F, U+3000. -/
def goIsSpace (c : Char) : Bool :=
  (9 ≤ c.toNat && c.toNat ≤ 13) || c.toNat == 32 ||
  c.toNat == 0x85 || c.toNat == 0xA0 || c.toNat == 0x1680 ||
  (0x2000 ≤ c.toNat && c.toNat ≤ 0x200A) ||
  c.toNat == 0x2028 || c.toNat == 0x2029 ||
  c.toNat == 0x202F || c.toNat == 0x205F || c.toNat == 0x3000

/-- RE2 character class `\s` (ASCII only): `[\t\n\f\r ]`. -/
def reIsSpace (c : Char) : Bool :=
  c.toNat == 9 || c.toNat == 10 || c.toNat == 12 || c.toNat == 13 || c.toNat == 32

/-- Drop elements satisfying `p` from the right end of a list. -/
def dropRightWhile (p : Char → Bool) (l : List Char) : List Char :=
  (l.reverse.dropWhile p).reverse

/-- Go `strings.TrimSpace`. -/
def goTrimSpace (l : List Char) : List Char :=
  dropRightWhile goIsSpace (l.dropWhile goIsSpace)

/-- Go `strings.ToLower`, modeled on ASCII `A-Z` and the Latin-1 uppercase
range U+00C0-U+00DE (excluding the multiplication sign U+00D7); every
character fed to it by the embedded pipelines falls in this range. -/
def goToLower (c : Char) : Char :=
  if 65 ≤ c.toNat ∧ c.toNat ≤ 90 then Char.ofNat (c.toNat + 32)
  else if 192 ≤ c.toNat ∧ c.toNat ≤ 222 ∧ c.toNat ≠ 215 then Char.ofNat (c.toNat + 32)
  else c

/-- Go `strings.ToLower` lifted to rune lists. -/
def lowerStr (l : List Char) : List Char := l.map goToLower

/-! ### Branch search (src/unnamed/part_003) -/

/-- Go `strings.Contains s substr`: some suffix of `s` starts with `substr`. -/
def goContains (s substr : List Char) : Bool :=
  match s with
  | [] => substr.isPrefixOf ([] : List Char)
  | c :: t => substr.isPrefixOf (c :: t) || goContains t substr

/-- Result of a branch search operation (`BranchSearchResult` in the source). -/
structure BranchSearchResult where
  Branches : List (List Char)
  HasResults : Bool
  SearchTerm : List Char
deriving DecidableEq

/-- The `fuzzyMatch` subsequence test from src/unnamed/part_003 lines 103-122:
the two-cursor loop advances the branch cursor on every step and the search
cursor only on an equal character; it succeeds when the search term is
exhausted. -/
def fuzzyMatch : List Char → List Char → Bool
  | _, [] => true
  | [], _ :: _ => false
  | b :: bs, s :: ss => if b = s then fuzzyMatch bs ss else fuzzyMatch bs (s :: ss)

/-- The classification loop of `FilterBranchesRealtime` (lines 144-154): one
pass over the candidates appending each to the exact-match accumulator when
the lower-cased search term is a contiguous substring of the lower-cased
candidate, and otherwise to the fuzzy accumulator when `fuzzyMatch` succeeds. -/
def splitMatches (st : List Char) : List (List Char) → List (List Char) × List (List Char)
  | [] => ([], [])
  | b :: bs =>
    let rest := splitMatches st bs
    if goContains (lowerStr b) st then (b :: rest.1, rest.2)
    else if fuzzyMatch (lowerStr b) st then (rest.1, b :: rest.2)
    else rest

/-- `FilterBranchesRealtime` from src/unnamed/part_003 lines 125-163. -/
def FilterBranchesRealtime (branches : List (List Char)) (searchTerm : List Char) :
    BranchSearchResult :=
  if searchTerm = [] then { Branches := branches, HasResults := true, SearchTerm := searchTerm }
  else
    let st := lowerStr searchTerm
    let m := splitMatches st branches
    let filtered := m.1 ++ m.2
    { Branches := filtered, HasResults := decide (filtered.length > 0), SearchTerm := searchTerm }

/-! ### Branch listing (src/unnamed/part_003 lines 17-63) -/

/-- Per-branch information (`BranchInfo` in package git). -/
structure GitBranchInfo where
  Name : List Char
  IsCurrent : Bool
  IsRemote : Bool
deriving DecidableEq

/-- The per-line processing of the loop in `GetBranchesWithInfo`
(lines 37-60): trim the line, skip it when empty, split on `|`, require
exactly two fields, mark remote when the name starts with `origin/` or
contains `/`, and keep only non-remote branches. -/
def parseBranchLine (line : List Char) : Option GitBranchInfo :=
  let l := goTrimSpace line
  if l = [] then none
  else match l.splitOn '|' with
    | [branchName, headMark] =>
      let isRemote := (str "origin/").isPrefixOf branchName || decide ('/' ∈ branchName)
      if isRemote then none
      else some { Name := branchName, IsCurrent := headMark = ['*'], IsRemote := isRemote }
    | _ => none

/-- The pure core of `GetBranchesWithInfo`: the `git branch -a` subprocess is
external, so the function is modeled on the raw command output it parses
(lines 34-62 of src/unnamed/part_003). -/
def GetBranchesWithInfo (output : List Char) : List GitBranchInfo :=
  ((goTrimSpace output).splitOn '\n').filterMap parseBranchLine

/-! ### Wizard back navigation (src/internal/tui/app.go lines 677-693) -/

/-- The wizard states (`AppState` in src/internal/tui/app.go). -/
inductive AppState where
  | StateTypeSelection
  | StateBranchSelection
  | StateTicketInput
  | StateTitleInput
  | StateConfirmation
  | StateComplete
deriving DecidableEq

/-- The `handleBack` switch: `none` models the `tea.Quit` return (wizard
termination); `some s` models returning with `m.state = s`. -/
def handleBack : AppState → Option AppState
  | .StateTypeSelection => none
  | .StateBranchSelection => some .StateTypeSelection
  | .StateTicketInput => some .StateBranchSelection
  | .StateTitleInput => some .StateBranchSelection
  | .StateConfirmation => some .StateTicketInput
  | .StateComplete => some .StateConfirmation

/-! ### Ticket form (src/internal/tui/models/branch_selector.go) -/

/-- Message carrying a title-fetch result (`FetchTitleMsg`, lines 229-233). -/
structure FetchTitleMsg where
  TicketID : List Char
  Title : List Char
  Error : List Char
deriving DecidableEq

/-- The `InputFormModel` fields touched by the fetch-result handler. -/
structure InputFormState where
  ticketInputValue : List Char
  titleInputValue : List Char
  titleFetching : Bool
  titleFetched : Bool
  titleError : List Char
deriving DecidableEq

/-- The `case FetchTitleMsg` arm of `InputFormModel.Update` (lines 212-223):
clear the fetching flag; on error record it, otherwise set the title input to
the fetched title.  The handler never consults `msg.TicketID`. -/
def updateFetchTitleMsg (m : InputFormState) (msg : FetchTitleMsg) : InputFormState :=
  let m' := { m with titleFetching := false }
  if msg.Error ≠ [] then { m' with titleError := msg.Error, titleFetched := false }
  else { m' with titleInputValue := msg.Title, titleFetched := true, titleError := [] }

/-- The regex `[A-Z][A-Z0-9]*-\d+` anchored on both sides
(`validateTicketNumber`, line 271).  Since `-` is not in `[A-Z0-9]`, the
greedy middle run is forced, so a single scan decides the match. -/
def matchesTicketRegex (l : List Char) : Bool :=
  match l with
  | [] => false
  | c :: rest =>
    isAsciiUpper c &&
    (match rest.dropWhile isUpperOrDigit with
     | '-' :: ds => !ds.isEmpty && ds.all isAsciiDigit
     | _ => false)

/-- Error message set by `validateTicketNumber` on a malformed ticket id. -/
def ticketErrorMsg : List Char := str "Invalid format. Use PROJECT-123 format (e.g., JIRA-123)"

/-- `validateTicketNumber` (lines 261-280), returning the
`(ticketValid, ticketError)` pair it assigns. -/
def validateTicketNumber (value : List Char) : Bool × List Char :=
  let v := goTrimSpace value
  if v = [] then (false, [])
  else if matchesTicketRegex v then (true, [])
  else (false, ticketErrorMsg)

/-- `isFormValid` (lines 307-309). -/
def isFormValid (ticketValid : Bool) (ticketInputValue : List Char) : Bool :=
  ticketValid && !(goTrimSpace ticketInputValue).isEmpty

/-! ### Branch name sanitizer (src/internal/branch/sanitizer.go lines 143-206) -/

/-- Options for branch name sanitization (`SanitizationOptions`). -/
structure SanitizationOptions where
  Separator : List Char
  Lowercase : Bool
  RemoveUmlauts : Bool
  MaxLength : Int
deriving DecidableEq

/-- The replacement table of `removeUmlauts` (sanitizer.go lines 211-231).
The Go map's iteration order is irrelevant: every pattern is a single
non-ASCII rune and every replacement is ASCII letters, so no replacement can
create or destroy another pattern and the sequential `ReplaceAll`s act as one
character-wise expansion. -/
def umlautTable : List (Char × List Char) :=
  [('ä', str "ae"), ('Ä', str "Ae"),
   ('ö', str "oe"), ('Ö', str "Oe"),
   ('ü', str "ue"), ('Ü', str "Ue"),
   ('ß', str "ss"),
   ('à', str "a"), ('á', str "a"), ('â', str "a"), ('ã', str "a"), ('å', str "a"),
   ('æ', str "ae"),
   ('À', str "A"), ('Á', str "A"), ('Â', str "A"), ('Ã', str "A"), ('Å', str "A"),
   ('Æ', str "Ae"),
   ('è', str "e"), ('é', str "e"), ('ê', str "e"), ('ë', str "e"),
   ('È', str "E"), ('É', str "E"), ('Ê', str "E"), ('Ë', str "E"),
   ('ì', str "i"), ('í', str "i"), ('î', str "i"), ('ï', str "i"),
   ('Ì', str "I"), ('Í', str "I"), ('Î', str "I"), ('Ï', str "I"),
   ('ò', str "o"), ('ó', str "o"), ('ô', str "o"), ('õ', str "o"), ('ø', str "o"),
   ('Ò', str "O"), ('Ó', str "O"), ('Ô', str "O"), ('Õ', str "O"), ('Ø', str "O"),
   ('ù', str "u"), ('ú', str "u"), ('û', str "u"),
   ('Ù', str "U"), ('Ú', str "U"), ('Û', str "U"),
   ('ç', str "c"), ('Ç', str "C"),
   ('ñ', str "n"), ('Ñ', str "N")]

/-- Replacement for one character under the umlaut table, if any. -/
def umlautRep (c : Char) : Option (List Char) :=
  (umlautTable.find? (fun p => p.1 == c)).map (fun p => p.2)

/-- `removeUmlauts` (sanitizer.go lines 210-239) as a character-wise map. -/
def removeUmlauts (l : List Char) : List Char :=
  l.flatMap (fun c => (umlautRep c).getD [c])

/-- Step 2a: path separators `/` (code 47) and `\` (code 92) become spaces. -/
def slashToSpace (c : Char) : Char :=
  if c.toNat == 47 || c.toNat == 92 then ' ' else c

/-- Step 2b: the removal class of sanitizer.go line 160, i.e. the characters
`" ( ) [ ] { } : ; , < > ? | * & ^ % $ # @ ! ~` and the backtick, given here
by ASCII code. -/
def isRemovedSpecial (c : Char) : Bool :=
  c.toNat == 34 || c.toNat == 40 || c.toNat == 41 || c.toNat == 91 || c.toNat == 93 ||
  c.toNat == 123 || c.toNat == 125 || c.toNat == 58 || c.toNat == 59 || c.toNat == 44 ||
  c.toNat == 60 || c.toNat == 62 || c.toNat == 63 || c.toNat == 124 || c.toNat == 42 ||
  c.toNat == 38 || c.toNat == 94 || c.toNat == 37 || c.toNat == 36 || c.toNat == 35 ||
  c.toNat == 64 || c.toNat == 33 || c.toNat == 126 || c.toNat == 96

/-- Leftmost-greedy replacement of the RE2 pattern `\s* pc \s*` by `sep`
(sanitizer.go lines 169-170).  A match starts at a position exactly when
dropping the maximal whitespace run from it reaches `pc` (shorter whitespace
prefixes end inside the run, not at `pc`); the match greedily consumes the
trailing whitespace run.  Fuel bounds the number of steps; every step consumes
at least one character, so `fuel = length` makes the function total with the
`fuel = 0` branch unreachable on nonempty remainders. -/
def repAroundGo (pc : Char) (sep : List Char) : Nat → List Char → List Char
  | 0, l => l
  | _ + 1, [] => []
  | fuel + 1, c :: rest =>
    match (c :: rest).dropWhile reIsSpace with
    | t :: u =>
      if t = pc then sep ++ repAroundGo pc sep fuel (u.dropWhile reIsSpace)
      else c :: repAroundGo pc sep fuel rest
    | [] => c :: repAroundGo pc sep fuel rest

/-- Entry point for the `\s* pc \s*` replacement. -/
def repAround (pc : Char) (sep : List Char) (l : List Char) : List Char :=
  repAroundGo pc sep l.length l

/-- Step 4: leftmost-greedy replacement of `\s+` runs by `sep`
(sanitizer.go line 173). -/
def repWsRunsGo (sep : List Char) : Nat → List Char → List Char
  | 0, l => l
  | _ + 1, [] => []
  | fuel + 1, c :: rest =>
    if reIsSpace c then sep ++ repWsRunsGo sep fuel (rest.dropWhile reIsSpace)
    else c :: repWsRunsGo sep fuel rest

/-- Entry point for the `\s+` replacement. -/
def repWsRuns (sep : List Char) (l : List Char) : List Char :=
  repWsRunsGo sep l.length l

/-- Maximal number of consecutive copies of `sep` prefixing `l`. -/
def countReps (sep : List Char) : Nat → List Char → Nat
  | 0, _ => 0
  | fuel + 1, l =>
    if sep ≠ [] ∧ sep.isPrefixOf l then countReps sep fuel (l.drop sep.length) + 1 else 0

/-- Step 5: leftmost-greedy replacement of `sep{2,}` by `sep`
(sanitizer.go lines 177-178). -/
def collapseRunsGo (sep : List Char) : Nat → List Char → List Char
  | 0, l => l
  | _ + 1, [] => []
  | fuel + 1, c :: rest =>
    let k := countReps sep (c :: rest).length (c :: rest)
    if 2 ≤ k then sep ++ collapseRunsGo sep fuel ((c :: rest).drop (k * sep.length))
    else c :: collapseRunsGo sep fuel rest

/-- Entry point for the `sep{2,}` collapse. -/
def collapseRuns (sep : List Char) (l : List Char) : List Char :=
  collapseRunsGo sep l.length l

/-- Step 6: the keep class `[a-zA-Z0-9]`, the separator's characters, and the
dot (code 46) — sanitizer.go lines 182-183.  `QuoteMeta(sep)` inside a
character class contributes the separator's characters as class members. -/
def keepChar (sep : List Char) (c : Char) : Bool :=
  isAsciiAlnum c || decide (c ∈ sep) || c.toNat == 46

/-- Go `strings.LastIndex(l, sep)`: index of the last occurrence of `sep` as a
substring (`none` for Go's `-1`); indices are rune counts, which equal Go's
byte counts on the ASCII data present at this pipeline stage. -/
def lastIndexOfGo? (sep l : List Char) : Option Nat :=
  ((List.range (l.length + 1)).filter (fun i => sep.isPrefixOf (l.drop i))).getLast?

/-- Step 8 (sanitizer.go lines 191-197): when `0 < MaxLength < length`,
truncate to `MaxLength` and, if the last separator occurrence in the truncated
string lies strictly past `MaxLength/2`, cut back to it. -/
def sanTruncate (maxLength : Int) (sep : List Char) (l : List Char) : List Char :=
  if 0 < maxLength ∧ maxLength < (l.length : Int) then
    let t := l.take maxLength.toNat
    match lastIndexOfGo? sep t with
    | some i => if maxLength / 2 < (i : Int) then t.take i else t
    | none => t
  else l

/-- Go `strings.Trim(l, cut)`: remove characters of the cutset from both
ends. -/
def trimCutset (cut l : List Char) : List Char :=
  dropRightWhile (fun c => decide (c ∈ cut)) (l.dropWhile (fun c => decide (c ∈ cut)))

/-- `BranchSanitizer.Sanitize` (sanitizer.go lines 143-206): the nine-step
pipeline.  Steps appear in source order; the separator is defaulted to `-`
when empty before the separator-dependent steps. -/
def Sanitize (input : List Char) (options : SanitizationOptions) : List Char :=
  if input = [] then []
  else
    let r1 := goTrimSpace input
    let r2 := if options.RemoveUmlauts then removeUmlauts r1 else r1
    let r3 := (r2.map slashToSpace).filter (fun c => !isRemovedSpecial c)
    let separator := if options.Separator = [] then ['-'] else options.Separator
    let r4 := repAround '-' separator r3
    let r5 := repAround '_' separator r4
    let r6 := repWsRuns separator r5
    let r7 := collapseRuns separator r6
    let r8 := r7.filter (keepChar separator)
    let r9 := if options.Lowercase then r8.map goToLower else r8
    let r10 := sanTruncate options.MaxLength separator r9
    let r11 := trimCutset separator r10
    r11.dropWhile (fun c => c.toNat == 46)

/-! ### Branch name generator (src/unnamed/part_009) -/

/-- Information needed to generate a branch name (`BranchInfo` in package
branch; the Go field `Type` is spelled `Type'` since `Type` is reserved). -/
structure BranchInfo where
  Type' : List Char
  TicketID : List Char
  Title : List Char
  BaseBranch : List Char
  FullName : List Char
deriving DecidableEq

/-- Configuration for branch name generation (`GeneratorConfig`). -/
structure GeneratorConfig where
  MaxBranchLength : Int
  Separator : List Char
  Lowercase : Bool
  RemoveUmlauts : Bool
deriving DecidableEq

/-- The prefix length `len(type) + 1 + len(ticket) + len(separator)` of
GenerateNameWithConfig (part_009 line 84). -/
def prefixLength (info : BranchInfo) (config : GeneratorConfig) : Int :=
  info.Type'.length + 1 + info.TicketID.length + config.Separator.length

/-- The title length budget with its floor of 10 (part_009 lines 85-90). -/
def availableTitleLength (info : BranchInfo) (config : GeneratorConfig) : Int :=
  let a := config.MaxBranchLength - prefixLength info config
  if a < 1 then 10 else a

/-- Go `strings.TrimSuffix`: drop one trailing occurrence of `suffix`. -/
def trimSuffixList (l suffix : List Char) : List Char :=
  if suffix.isSuffixOf l then l.take (l.length - suffix.length) else l

/-- `BranchGenerator.GenerateNameWithConfig` (part_009 lines 71-119). -/
def GenerateNameWithConfig (info : BranchInfo) (config : GeneratorConfig) : List Char :=
  if info.Type' = [] ∨ info.TicketID = [] then []
  else
    let title := if info.Title = [] then info.TicketID else info.Title
    let sanitizedTitle := Sanitize title
      { Separator := config.Separator, Lowercase := config.Lowercase,
        RemoveUmlauts := config.RemoveUmlauts,
        MaxLength := availableTitleLength info config }
    let branchName := info.Type' ++ '/' :: (info.TicketID ++ config.Separator ++ sanitizedTitle)
    if config.MaxBranchLength < (branchName.length : Int) then
      let maxTitleLength := config.MaxBranchLength - prefixLength info config
      if 0 < maxTitleLength then
        let truncatedTitle :=
          if maxTitleLength < (sanitizedTitle.length : Int) then
            trimSuffixList (sanitizedTitle.take maxTitleLength.toNat) config.Separator
          else sanitizedTitle
        info.Type' ++ '/' :: (info.TicketID ++ config.Separator ++ truncatedTitle)
      else branchName
    else branchName

/-- Error text for an invalid pattern (part_009 line 146). -/
def invalidMsg (pat : List Char) : List Char :=
  str "invalid branch name: contains invalid pattern " ++ pat

/-- `BranchGenerator.ValidateName` (part_009 lines 122-151): the patterns are
tested in source order; `none` models a nil error. -/
def ValidateName (name : List Char) : Option (List Char) :=
  if name = [] then some (str "branch name cannot be empty")
  else if name.head? = some '.' then some (invalidMsg (str "^\\."))
  else if name.getLast? = some '.' then some (invalidMsg (str "\\.$"))
  else if goContains name (str "..") then some (invalidMsg (str "\\.\\."))
  else if name.head? = some '/' then some (invalidMsg (str "^/"))
  else if name.getLast? = some '/' then some (invalidMsg (str "/$"))
  else if goContains name (str "//") then some (invalidMsg (str "//"))
  else if name.any reIsSpace then some (invalidMsg (str "\\s"))
  else if name.any (fun c => c.toNat ≤ 31 || c.toNat == 127) then
    some (invalidMsg (str "[\\x00-\\x1f\\x7f]"))
  else if name.any (fun c =>
      c.toNat == 126 || c.toNat == 94 || c.toNat == 58 || c.toNat == 63 ||
      c.toNat == 42 || c.toNat == 91) then
    some (invalidMsg (str "[~^:?*\\[]"))
  else none

/-- Two adjacent occurrences of `pc` somewhere in the list. -/
def hasDouble (pc : Char) : List Char → Bool
  | a :: b :: t => (decide (a = pc) && decide (b = pc)) || hasDouble pc (b :: t)
  | _ => false

/-- Characters allowed in the type/ticket hypotheses of the amended C1:
ASCII letters, digits, and the hyphen (code 45). -/
def isAlnumDash (c : Char) : Bool := isAsciiAlnum c || c.toNat == 45

/-! ### Theorems for the search, navigation and form claims -/

theorem splitMatches_eq (st : List Char) (bs : List (List Char)) :
    splitMatches st bs =
      (bs.filter (fun b => goContains (lowerStr b) st),
       bs.filter (fun b => !goContains (lowerStr b) st && fuzzyMatch (lowerStr b) st)) := by
  induction bs with
  | nil => rfl
  | cons b bs ih =>
    simp only [splitMatches, ih, List.filter]
    by_cases h1 : goContains (lowerStr b) st
    · simp [h1]
    · by_cases h2 : fuzzyMatch (lowerStr b) st <;> simp [h1, h2]

/-- C5: for a non-empty query, the realtime filter returns exactly the
candidates whose lower-cased text contains the lower-cased query as a
contiguous substring, in original order, followed by the candidates that only
match as a subsequence, in original order; a candidate matching both ways
appears once, in the first group. -/
theorem c5_exact_then_fuzzy (branches : List (List Char)) (q : List Char) (hq : q ≠ []) :
    (FilterBranchesRealtime branches q).Branches =
      branches.filter (fun b => goContains (lowerStr b) (lowerStr q)) ++
      branches.filter
        (fun b => !goContains (lowerStr b) (lowerStr q) && fuzzyMatch (lowerStr b) (lowerStr q)) := by
  simp only [FilterBranchesRealtime, if_neg hq, splitMatches_eq]

/-- Witness for C5 at a concrete query and candidate list. -/
theorem c5_exact_then_fuzzy_witness :
    (FilterBranchesRealtime [str "main", str "feature/x"] (str "eat")).Branches =
      [str "main", str "feature/x"].filter
        (fun b => goContains (lowerStr b) (lowerStr (str "eat"))) ++
      [str "main", str "feature/x"].filter
        (fun b => !goContains (lowerStr b) (lowerStr (str "eat")) &&
          fuzzyMatch (lowerStr b) (lowerStr (str "eat"))) :=
  c5_exact_then_fuzzy [str "main", str "feature/x"] (str "eat") (by decide)

/-- C6: the empty query returns all candidates unchanged and in order with
`HasResults = true`, even for an empty candidate list. -/
theorem c6_empty_query (branches : List (List Char)) :
    FilterBranchesRealtime branches [] =
      { Branches := branches, HasResults := true, SearchTerm := [] } := by
  rfl

/-- C3 counterexample: pressing back in `StateComplete` does not terminate the
wizard (which `none` would model); it moves to `StateConfirmation`. -/
theorem c3_counterexample :
    handleBack AppState.StateComplete = some AppState.StateConfirmation ∧
    handleBack AppState.StateComplete ≠ none := by decide

/-- C3 (amended): the back key implements the fixed table
`BranchSelection→TypeSelection`, `TicketInput→BranchSelection`,
`Confirmation→TicketInput`; from `TypeSelection` it terminates the wizard,
while from `Complete` it moves back to `Confirmation` (and from the extra
`TitleInput` state to `BranchSelection`). -/
theorem c3_back_table :
    handleBack AppState.StateTypeSelection = none ∧
    handleBack AppState.StateBranchSelection = some AppState.StateTypeSelection ∧
    handleBack AppState.StateTicketInput = some AppState.StateBranchSelection ∧
    handleBack AppState.StateConfirmation = some AppState.StateTicketInput ∧
    handleBack AppState.StateComplete = some AppState.StateConfirmation ∧
    handleBack AppState.StateTitleInput = some AppState.StateBranchSelection := by
  decide

/-- C4: the fetch-result handler ignores the ticket id the fetch was tagged
with.  At a form whose current ticket value `PROJ-2` differs from the tag
`PROJ-1` of the arriving message, the stale title is still written into the
title field, contradicting the stale-result guard the claim describes. -/
theorem c4_stale_result_applied :
    (FetchTitleMsg.mk (str "PROJ-1") (str "Stale title") []).TicketID ≠
      (InputFormState.mk (str "PROJ-2") [] true false []).ticketInputValue ∧
    (updateFetchTitleMsg (InputFormState.mk (str "PROJ-2") [] true false [])
        (FetchTitleMsg.mk (str "PROJ-1") (str "Stale title") [])).titleInputValue =
      str "Stale title" ∧
    (updateFetchTitleMsg (InputFormState.mk (str "PROJ-2") [] true false [])
        (FetchTitleMsg.mk (str "PROJ-1") (str "Stale title") [])).titleInputValue ≠
      (InputFormState.mk (str "PROJ-2") [] true false []).titleInputValue := by
  decide

/-- C9 counterexample: the raw value `" PROJ-123"` is accepted by
`validateTicketNumber` although it does not match the anchored pattern, so
acceptance is not equivalent to the raw value matching the pattern. -/
theorem c9_counterexample :
    (validateTicketNumber (str " PROJ-123")).1 = true ∧
    matchesTicketRegex (str " PROJ-123") = false := by decide

/-- C9 (amended): validation trims the value first; it accepts exactly when
the trimmed value matches `[A-Z][A-Z0-9]*-\d+`; a value whose trimmed form is
non-empty and non-matching is marked invalid with the descriptive message;
`"proj-123"` is rejected and `"PROJ-123"` accepted. -/
theorem c9_trimmed_regex (v : List Char) :
    (validateTicketNumber v).1 = matchesTicketRegex (goTrimSpace v) ∧
    (goTrimSpace v ≠ [] → matchesTicketRegex (goTrimSpace v) = false →
      validateTicketNumber v = (false, ticketErrorMsg)) ∧
    (validateTicketNumber (str "proj-123")).1 = false ∧
    (validateTicketNumber (str "PROJ-123")).1 = true := by
  refine ⟨?_, ?_, by decide, by decide⟩
  · unfold validateTicketNumber
    by_cases h : goTrimSpace v = []
    · simp [h, matchesTicketRegex]
    · by_cases h2 : matchesTicketRegex (goTrimSpace v) <;> simp [h, h2]
  · intro h1 h2
    unfold validateTicketNumber
    simp [h1, h2]

/-- Witness for C9 at a concrete malformed value. -/
theorem c9_trimmed_regex_witness :
    (validateTicketNumber (str "abc-1")).1 = matchesTicketRegex (goTrimSpace (str "abc-1")) ∧
    validateTicketNumber (str "abc-1") = (false, ticketErrorMsg) :=
  ⟨(c9_trimmed_regex (str "abc-1")).1,
   (c9_trimmed_regex (str "abc-1")).2.1 (by decide) (by decide)⟩

/-- C10: every branch produced by the `GetBranchesWithInfo` parsing loop has a
name free of `/`; slash-named branches, local or remote-tracking, are
excluded. -/
theorem c10_no_slash (output : List Char) (b : GitBranchInfo)
    (hb : b ∈ GetBranchesWithInfo output) : '/' ∉ b.Name := by
  simp only [GetBranchesWithInfo, List.mem_filterMap] at hb
  obtain ⟨line, -, hparse⟩ := hb
  unfold parseBranchLine at hparse
  dsimp only at hparse
  split at hparse
  · exact absurd hparse (by simp)
  · split at hparse
    next branchName headMark _ =>
      by_cases hrem :
          ((str "origin/").isPrefixOf branchName || decide ('/' ∈ branchName)) = true
      · rw [if_pos hrem] at hparse
        exact absurd hparse (by simp)
      · rw [if_neg hrem] at hparse
        simp only [Bool.or_eq_true, decide_eq_true_eq, not_or] at hrem
        cases hparse
        exact hrem.2
    next => exact absurd hparse (by simp)

/-- Witness for C10 at a concrete `git branch` output. -/
theorem c10_no_slash_witness :
    '/' ∉ (GitBranchInfo.mk (str "main") true false).Name :=
  c10_no_slash (str "main|*") (GitBranchInfo.mk (str "main") true false) (by decide)

/-! ### Helper lemmas: characters -/

theorem char_eq_of_toNat_eq {c d : Char} (h : c.toNat = d.toNat) : c = d :=
  Char.ext (UInt32.ext h)

theorem char_toNat_ofNat (n : Nat) (h : n < 0xD800) : (Char.ofNat n).toNat = n := by
  simp [Char.ofNat, Char.toNat, Nat.isValidChar, h, Char.ofNatAux, UInt32.toNat,
    UInt32.ofNatCore]

theorem goToLower_toNat (c : Char) :
    (goToLower c).toNat =
      if 65 ≤ c.toNat ∧ c.toNat ≤ 90 then c.toNat + 32
      else if 192 ≤ c.toNat ∧ c.toNat ≤ 222 ∧ c.toNat ≠ 215 then c.toNat + 32
      else c.toNat := by
  unfold goToLower
  by_cases h1 : 65 ≤ c.toNat ∧ c.toNat ≤ 90
  · rw [if_pos h1, if_pos h1, char_toNat_ofNat _ (by omega)]
  · rw [if_neg h1, if_neg h1]
    by_cases h2 : 192 ≤ c.toNat ∧ c.toNat ≤ 222 ∧ c.toNat ≠ 215
    · rw [if_pos h2, if_pos h2, char_toNat_ofNat _ (by omega)]
    · rw [if_neg h2, if_neg h2]

theorem goToLower_eq_self {c : Char} (h1 : ¬(65 ≤ c.toNat ∧ c.toNat ≤ 90))
    (h2 : ¬(192 ≤ c.toNat ∧ c.toNat ≤ 222 ∧ c.toNat ≠ 215)) : goToLower c = c := by
  unfold goToLower
  rw [if_neg h1, if_neg h2]

theorem goToLower_idem (c : Char) : goToLower (goToLower c) = goToLower c := by
  have ht := goToLower_toNat c
  apply goToLower_eq_self <;>
  · intro hc
    rw [ht] at hc
    split_ifs at hc <;> omega

theorem keepChar_dash_iff {c : Char} :
    keepChar ['-'] c = true ↔
      (97 ≤ c.toNat ∧ c.toNat ≤ 122) ∨ (65 ≤ c.toNat ∧ c.toNat ≤ 90) ∨
      (48 ≤ c.toNat ∧ c.toNat ≤ 57) ∨ c = '-' ∨ c.toNat = 46 := by
  simp only [keepChar, isAsciiAlnum, isAsciiLower, isAsciiUpper, isAsciiDigit,
    Bool.or_eq_true, Bool.and_eq_true, decide_eq_true_eq, List.mem_singleton, beq_iff_eq]
  tauto

theorem keepChar_dash_arith {c : Char} (h : keepChar ['-'] c = true) :
    (97 ≤ c.toNat ∧ c.toNat ≤ 122) ∨ (65 ≤ c.toNat ∧ c.toNat ≤ 90) ∨
    (48 ≤ c.toNat ∧ c.toNat ≤ 57) ∨ c.toNat = 45 ∨ c.toNat = 46 := by
  rcases keepChar_dash_iff.mp h with h1 | h1 | h1 | rfl | h1
  · tauto
  · tauto
  · tauto
  · exact by decide
  · tauto

theorem keepChar_dash_of_arith {c : Char}
    (h : (97 ≤ c.toNat ∧ c.toNat ≤ 122) ∨ (65 ≤ c.toNat ∧ c.toNat ≤ 90) ∨
      (48 ≤ c.toNat ∧ c.toNat ≤ 57) ∨ c.toNat = 45 ∨ c.toNat = 46) :
    keepChar ['-'] c = true := by
  apply keepChar_dash_iff.mpr
  rcases h with h1 | h1 | h1 | h1 | h1
  · tauto
  · tauto
  · tauto
  · exact Or.inr (Or.inr (Or.inr (Or.inl (char_eq_of_toNat_eq (by rw [h1]; rfl)))))
  · tauto

theorem reIsSpace_false_of_arith {c : Char} (h : 45 ≤ c.toNat ∧ c.toNat ≤ 122) :
    reIsSpace c = false := by
  simp only [reIsSpace, Bool.or_eq_false_iff, beq_eq_false_iff_ne, ne_eq]
  omega

theorem goIsSpace_false_of_arith {c : Char} (h : 45 ≤ c.toNat ∧ c.toNat ≤ 122) :
    goIsSpace c = false := by
  simp only [goIsSpace, Bool.or_eq_false_iff, beq_eq_false_iff_ne, ne_eq,
    Bool.and_eq_false_iff, decide_eq_false_iff_not, not_le]
  omega

theorem keepChar_dash_range {c : Char} (h : keepChar ['-'] c = true) :
    45 ≤ c.toNat ∧ c.toNat ≤ 122 := by
  rcases keepChar_dash_arith h with h1 | h1 | h1 | h1 | h1 <;> omega

theorem slashToSpace_eq_self_of_arith {c : Char} (h : c.toNat ≠ 47 ∧ c.toNat ≠ 92) :
    slashToSpace c = c := by
  unfold slashToSpace
  rw [if_neg]
  simp only [Bool.or_eq_true, beq_iff_eq]
  omega

theorem isRemovedSpecial_false_of_keep {c : Char} (h : keepChar ['-'] c = true) :
    isRemovedSpecial c = false := by
  have ha := keepChar_dash_arith h
  simp only [isRemovedSpecial, Bool.or_eq_false_iff, beq_eq_false_iff_ne, ne_eq]
  omega

theorem keepChar_dash_goToLower {c : Char} (h : keepChar ['-'] c = true) :
    keepChar ['-'] (goToLower c) = true := by
  have ha := keepChar_dash_arith h
  have ht := goToLower_toNat c
  apply keepChar_dash_of_arith
  split_ifs at ht <;> omega

theorem goToLower_toNat_ne_46 {c : Char} (hc : c.toNat ≠ 46) :
    (goToLower c).toNat ≠ 46 := by
  have ht := goToLower_toNat c
  split_ifs at ht <;> omega

/-! ### Helper lemmas: lists -/

theorem dropWhile_eq_self_of (p : Char → Bool) {l : List Char} (h : ∀ c ∈ l, p c = false) :
    l.dropWhile p = l := by
  cases l with
  | nil => rfl
  | cons c rest =>
    rw [List.dropWhile_cons, if_neg]
    simp [h c (List.mem_cons_self c rest)]

theorem dropWhile_eq_self_of_head (p : Char → Bool) (l : List Char)
    (h : ∀ c, l.head? = some c → p c = false) : l.dropWhile p = l := by
  cases l with
  | nil => rfl
  | cons c rest =>
    rw [List.dropWhile_cons, if_neg]
    simp [h c rfl]

theorem dropRightWhile_eq_self_of (p : Char → Bool) {l : List Char}
    (h : ∀ c ∈ l, p c = false) : dropRightWhile p l = l := by
  unfold dropRightWhile
  rw [dropWhile_eq_self_of p (fun c hc => h c (List.mem_reverse.mp hc)), List.reverse_reverse]

theorem dropRightWhile_eq_self_of_last (p : Char → Bool) (l : List Char)
    (h : ∀ c, l.getLast? = some c → p c = false) : dropRightWhile p l = l := by
  unfold dropRightWhile
  rw [dropWhile_eq_self_of_head p _ (fun c hc => h c (by rwa [List.head?_reverse] at hc)),
    List.reverse_reverse]

theorem head?_dropWhile_false (p : Char → Bool) (l : List Char) {c : Char}
    (hc : (l.dropWhile p).head? = some c) : p c = false := by
  induction l with
  | nil => simp at hc
  | cons a t ih =>
    rw [List.dropWhile_cons] at hc
    by_cases h : p a = true
    · rw [if_pos h] at hc
      exact ih hc
    · rw [if_neg h] at hc
      simp only [List.head?_cons, Option.some_inj] at hc
      subst hc
      exact Bool.not_eq_true _ |>.mp h

theorem getLast?_dropRightWhile_false (p : Char → Bool) (l : List Char) {c : Char}
    (hc : (dropRightWhile p l).getLast? = some c) : p c = false := by
  unfold dropRightWhile at hc
  rw [List.getLast?_eq_head?_reverse, List.reverse_reverse] at hc
  exact head?_dropWhile_false p l.reverse hc

theorem dropWhile_suffix' (p : Char → Bool) (l : List Char) : l.dropWhile p <:+ l := by
  induction l with
  | nil => exact List.suffix_rfl
  | cons a t ih =>
    rw [List.dropWhile_cons]
    by_cases h : p a = true
    · rw [if_pos h]
      exact ih.trans (List.suffix_cons a t)
    · rw [if_neg h]

theorem getLast?_dropWhile_of_ne_nil (p : Char → Bool) (l : List Char)
    (h : l.dropWhile p ≠ []) : (l.dropWhile p).getLast? = l.getLast? := by
  obtain ⟨pre, hpre⟩ := dropWhile_suffix' p l
  conv_rhs => rw [← hpre]
  rw [List.getLast?_append]
  cases hx : (l.dropWhile p).getLast? with
  | none => exact absurd (List.getLast?_eq_none_iff.mp hx) h
  | some c => rfl

theorem mem_of_mem_dropWhile {p : Char → Bool} {l : List Char} {c : Char}
    (h : c ∈ l.dropWhile p) : c ∈ l :=
  (List.dropWhile_sublist p).subset h

theorem trimCutset_eq_self (cut l : List Char)
    (hh : ∀ c, l.head? = some c → decide (c ∈ cut) = false)
    (hl : ∀ c, l.getLast? = some c → decide (c ∈ cut) = false) : trimCutset cut l = l := by
  unfold trimCutset
  rw [dropWhile_eq_self_of_head _ _ hh, dropRightWhile_eq_self_of_last _ _ hl]

theorem goTrimSpace_eq_self {l : List Char} (h : ∀ c ∈ l, goIsSpace c = false) :
    goTrimSpace l = l := by
  unfold goTrimSpace
  rw [dropWhile_eq_self_of _ h, dropRightWhile_eq_self_of _ h]

theorem flatMap_eq_self {l : List Char} {f : Char → List Char} (h : ∀ c ∈ l, f c = [c]) :
    l.flatMap f = l := by
  induction l with
  | nil => rfl
  | cons c t ih =>
    rw [List.flatMap_cons, h c (List.mem_cons_self c t),
      ih (fun d hd => h d (List.mem_cons_of_mem c hd))]
    rfl

theorem umlautRep_eq_none {c : Char} (h : c.toNat < 192) : umlautRep c = none := by
  unfold umlautRep
  rw [List.find?_eq_none.mpr]
  · rfl
  · intro p hp hbeq
    have h192 : 192 ≤ p.1.toNat := by
      have ht : ∀ q ∈ umlautTable, 192 ≤ q.1.toNat := by decide
      exact ht p hp
    have hpc : p.1 = c := by simpa using hbeq
    rw [hpc] at h192
    omega

theorem removeUmlauts_eq_self {l : List Char} (h : ∀ c ∈ l, c.toNat < 192) :
    removeUmlauts l = l := by
  unfold removeUmlauts
  exact flatMap_eq_self (fun c hc => by rw [umlautRep_eq_none (h c hc)]; rfl)

theorem removeUmlauts_no_dot {l : List Char} (h : ∀ c ∈ l, c.toNat ≠ 46) :
    ∀ x ∈ removeUmlauts l, x.toNat ≠ 46 := by
  intro x hx
  unfold removeUmlauts at hx
  rw [List.mem_flatMap] at hx
  obtain ⟨c, hc, hxc⟩ := hx
  cases hrep : umlautRep c with
  | none =>
    rw [hrep] at hxc
    simp only [Option.getD_none, List.mem_singleton] at hxc
    subst hxc
    exact h _ hc
  | some rep =>
    rw [hrep] at hxc
    simp only [Option.getD_some] at hxc
    unfold umlautRep at hrep
    cases hfind : umlautTable.find? (fun p => p.1 == c) with
    | none => rw [hfind] at hrep; exact Option.noConfusion hrep
    | some p =>
      rw [hfind] at hrep
      simp only [Option.map_some', Option.some_inj] at hrep
      have hmem := List.mem_of_find?_eq_some hfind
      have ht : ∀ q ∈ umlautTable, ∀ y ∈ q.2, y.toNat ≠ 46 := by decide
      exact ht p hmem x (hrep ▸ hxc)

/-! ### Helper lemmas: the replacement steps -/

theorem repAroundGo_eq_self (pc : Char) (sep : List Char) (fuel : Nat) :
    ∀ l : List Char, (∀ c ∈ l, reIsSpace c = false) → (∀ c ∈ l, c = pc → sep = [pc]) →
      repAroundGo pc sep fuel l = l := by
  induction fuel with
  | zero => intro l _ _; rfl
  | succ fuel ih =>
    intro l hws hpc
    cases l with
    | nil => rfl
    | cons c rest =>
      have hdrop : (c :: rest).dropWhile reIsSpace = c :: rest := dropWhile_eq_self_of _ hws
      have hws' : ∀ d ∈ rest, reIsSpace d = false :=
        fun d hd => hws d (List.mem_cons_of_mem c hd)
      have hrest : rest.dropWhile reIsSpace = rest := dropWhile_eq_self_of _ hws'
      simp only [repAroundGo, hdrop]
      by_cases hc : c = pc
      · rw [if_pos hc, hrest,
          ih rest hws' (fun d hd he => hpc d (List.mem_cons_of_mem c hd) he),
          hpc c (List.mem_cons_self c rest) hc, hc]
        rfl
      · rw [if_neg hc,
          ih rest hws' (fun d hd he => hpc d (List.mem_cons_of_mem c hd) he)]

theorem repWsRunsGo_eq_self (sep : List Char) (fuel : Nat) :
    ∀ l : List Char, (∀ c ∈ l, reIsSpace c = false) → repWsRunsGo sep fuel l = l := by
  induction fuel with
  | zero => intro l _; rfl
  | succ fuel ih =>
    intro l hws
    cases l with
    | nil => rfl
    | cons c rest =>
      simp only [repWsRunsGo]
      rw [if_neg (by simp [hws c (List.mem_cons_self c rest)]),
        ih rest (fun d hd => hws d (List.mem_cons_of_mem c hd))]

theorem countReps_eq_zero (sep : List Char) (fuel : Nat) (l : List Char)
    (h : sep.isPrefixOf l = false) : countReps sep fuel l = 0 := by
  cases fuel with
  | zero => rfl
  | succ fuel =>
    rw [countReps, if_neg]
    intro hcon
    rw [h] at hcon
    exact absurd hcon.2 (by simp)

theorem countReps_singleton_lt_two (pc : Char) (fuel : Nat) (c : Char) (rest : List Char)
    (hnd : hasDouble pc (c :: rest) = false) :
    countReps [pc] fuel (c :: rest) < 2 := by
  cases fuel with
  | zero => simp [countReps]
  | succ fuel =>
    rw [countReps]
    by_cases hc : [pc].isPrefixOf (c :: rest) = true
    · rw [if_pos ⟨by simp, hc⟩]
      have hcpc : pc = c := by
        have he : [pc].isPrefixOf (c :: rest) = (pc == c && ([] : List Char).isPrefixOf rest) :=
          rfl
        rw [he] at hc
        simp only [List.isPrefixOf, Bool.and_true, beq_iff_eq] at hc
        exact hc
      cases rest with
      | nil =>
        have hz : countReps [pc] fuel [] = 0 := countReps_eq_zero _ _ _ rfl
        show countReps [pc] fuel ([] : List Char) + 1 < 2
        rw [hz]
        omega
      | cons b t =>
        have hnd1 : (decide (c = pc) && decide (b = pc)) = false := by
          have he : hasDouble pc (c :: b :: t) =
              ((decide (c = pc) && decide (b = pc)) || hasDouble pc (b :: t)) := rfl
          rw [he] at hnd
          exact (Bool.or_eq_false_iff.mp hnd).1
        have hb : (pc == b) = false := by
          rcases Bool.and_eq_false_iff.mp hnd1 with h1 | h1
          · exact absurd hcpc.symm (by simpa using h1)
          · have hbne : ¬ b = pc := by simpa using h1
            rw [beq_eq_false_iff_ne]
            exact fun he => hbne he.symm
        have hpre : [pc].isPrefixOf (b :: t) = false := by
          have he : [pc].isPrefixOf (b :: t) = (pc == b && ([] : List Char).isPrefixOf t) := rfl
          rw [he, hb]
          rfl
        have hz : countReps [pc] fuel (b :: t) = 0 :=
          countReps_eq_zero _ _ _ (by simpa using hpre)
        show countReps [pc] fuel (b :: t) + 1 < 2
        rw [hz]
        omega
    · rw [if_neg (fun hcon => hc hcon.2)]
      omega

theorem hasDouble_tail {pc c : Char} {rest : List Char}
    (h : hasDouble pc (c :: rest) = false) : hasDouble pc rest = false := by
  cases rest with
  | nil => rfl
  | cons b t =>
    rw [hasDouble] at h
    exact (Bool.or_eq_false_iff.mp h).2

theorem collapseRunsGo_eq_self (pc : Char) (fuel : Nat) :
    ∀ l : List Char, hasDouble pc l = false → collapseRunsGo [pc] fuel l = l := by
  induction fuel with
  | zero => intro l _; rfl
  | succ fuel ih =>
    intro l hnd
    cases l with
    | nil => rfl
    | cons c rest =>
      simp only [collapseRunsGo]
      rw [if_neg (by
        have := countReps_singleton_lt_two pc (c :: rest).length c rest hnd
        omega)]
      rw [ih rest (hasDouble_tail hnd)]

theorem mem_repAroundGo (pc : Char) (sep : List Char) (fuel : Nat) :
    ∀ l x, x ∈ repAroundGo pc sep fuel l → x ∈ l ∨ x ∈ sep := by
  induction fuel with
  | zero => intro l x hx; exact Or.inl hx
  | succ fuel ih =>
    intro l x hx
    cases l with
    | nil => exact Or.inl hx
    | cons c rest =>
      rw [repAroundGo] at hx
      cases hdrop : (c :: rest).dropWhile reIsSpace with
      | nil =>
        rw [hdrop] at hx
        simp only [List.mem_cons] at hx
        rcases hx with rfl | hx
        · exact Or.inl (List.mem_cons_self _ _)
        · rcases ih rest x hx with h | h
          · exact Or.inl (List.mem_cons_of_mem c h)
          · exact Or.inr h
      | cons t u =>
        rw [hdrop] at hx
        dsimp only at hx
        by_cases ht : t = pc
        · rw [if_pos ht] at hx
          rw [List.mem_append] at hx
          rcases hx with h | h
          · exact Or.inr h
          · rcases ih _ x h with h2 | h2
            · have hu : x ∈ t :: u := List.mem_cons_of_mem t (mem_of_mem_dropWhile h2)
              rw [← hdrop] at hu
              exact Or.inl (mem_of_mem_dropWhile hu)
            · exact Or.inr h2
        · rw [if_neg ht] at hx
          simp only [List.mem_cons] at hx
          rcases hx with rfl | hx
          · exact Or.inl (List.mem_cons_self _ _)
          · rcases ih rest x hx with h | h
            · exact Or.inl (List.mem_cons_of_mem c h)
            · exact Or.inr h

theorem mem_repWsRunsGo (sep : List Char) (fuel : Nat) :
    ∀ l x, x ∈ repWsRunsGo sep fuel l → x ∈ l ∨ x ∈ sep := by
  induction fuel with
  | zero => intro l x hx; exact Or.inl hx
  | succ fuel ih =>
    intro l x hx
    cases l with
    | nil => exact Or.inl hx
    | cons c rest =>
      rw [repWsRunsGo] at hx
      by_cases hc : reIsSpace c = true
      · rw [if_pos hc] at hx
        rw [List.mem_append] at hx
        rcases hx with h | h
        · exact Or.inr h
        · rcases ih _ x h with h2 | h2
          · exact Or.inl (List.mem_cons_of_mem c (mem_of_mem_dropWhile h2))
          · exact Or.inr h2
      · rw [if_neg hc] at hx
        simp only [List.mem_cons] at hx
        rcases hx with rfl | hx
        · exact Or.inl (List.mem_cons_self _ _)
        · rcases ih rest x hx with h | h
          · exact Or.inl (List.mem_cons_of_mem c h)
          · exact Or.inr h

theorem mem_collapseRunsGo (sep : List Char) (fuel : Nat) :
    ∀ l x, x ∈ collapseRunsGo sep fuel l → x ∈ l ∨ x ∈ sep := by
  induction fuel with
  | zero => intro l x hx; exact Or.inl hx
  | succ fuel ih =>
    intro l x hx
    cases l with
    | nil => exact Or.inl hx
    | cons c rest =>
      simp only [collapseRunsGo] at hx
      by_cases hk : 2 ≤ countReps sep (c :: rest).length (c :: rest)
      · rw [if_pos hk] at hx
        rw [List.mem_append] at hx
        rcases hx with h | h
        · exact Or.inr h
        · rcases ih _ x h with h2 | h2
          · exact Or.inl (List.drop_subset _ _ h2)
          · exact Or.inr h2
      · rw [if_neg hk] at hx
        simp only [List.mem_cons] at hx
        rcases hx with rfl | hx
        · exact Or.inl (List.mem_cons_self _ _)
        · rcases ih rest x hx with h | h
          · exact Or.inl (List.mem_cons_of_mem c h)
          · exact Or.inr h

theorem sanTruncate_subset (ml : Int) (sep l : List Char) : sanTruncate ml sep l ⊆ l := by
  unfold sanTruncate
  by_cases h : 0 < ml ∧ ml < (l.length : Int)
  · rw [if_pos h]
    dsimp only
    cases hli : lastIndexOfGo? sep (l.take ml.toNat) with
    | none => exact List.take_subset _ _
    | some i =>
      dsimp only
      by_cases hi : ml / 2 < (i : Int)
      · rw [if_pos hi]
        exact (List.take_subset _ _).trans (List.take_subset _ _)
      · rw [if_neg hi]
        exact List.take_subset _ _
  · rw [if_neg h]
    exact fun x hx => hx

theorem sanTruncate_length_le {ml : Int} (sep l : List Char) (hml : 0 < ml) :
    ((sanTruncate ml sep l).length : Int) ≤ ml := by
  unfold sanTruncate
  by_cases h : 0 < ml ∧ ml < (l.length : Int)
  · rw [if_pos h]
    dsimp only
    have h1 : (l.take ml.toNat).length ≤ ml.toNat := by
      simp [List.length_take]
    cases hli : lastIndexOfGo? sep (l.take ml.toNat) with
    | none =>
      dsimp only
      omega
    | some i =>
      dsimp only
      by_cases hi : ml / 2 < (i : Int)
      · rw [if_pos hi]
        have h2 : (List.take i (l.take ml.toNat)).length ≤ (l.take ml.toNat).length :=
          (List.take_sublist _ _).length_le
        omega
      · rw [if_neg hi]
        omega
  · rw [if_neg h]
    omega

theorem trimCutset_subset (cut l : List Char) : trimCutset cut l ⊆ l := by
  unfold trimCutset dropRightWhile
  intro x hx
  rw [List.mem_reverse] at hx
  have h1 := mem_of_mem_dropWhile hx
  rw [List.mem_reverse] at h1
  exact mem_of_mem_dropWhile h1

theorem trimCutset_length_le (cut l : List Char) :
    (trimCutset cut l).length ≤ l.length := by
  unfold trimCutset dropRightWhile
  calc ((l.dropWhile (fun c => decide (c ∈ cut))).reverse.dropWhile
          (fun c => decide (c ∈ cut))).reverse.length
      = ((l.dropWhile (fun c => decide (c ∈ cut))).reverse.dropWhile
          (fun c => decide (c ∈ cut))).length := List.length_reverse _
    _ ≤ (l.dropWhile (fun c => decide (c ∈ cut))).reverse.length :=
        (List.dropWhile_sublist _).length_le
    _ = (l.dropWhile (fun c => decide (c ∈ cut))).length := List.length_reverse _
    _ ≤ l.length := (List.dropWhile_sublist _).length_le

theorem trimSuffixList_subset (l suffix : List Char) : trimSuffixList l suffix ⊆ l := by
  unfold trimSuffixList
  by_cases h : suffix.isSuffixOf l = true
  · rw [if_pos h]
    exact List.take_subset _ _
  · rw [if_neg h]
    exact fun x hx => hx

theorem getLast?_trimCutset_false (cut l : List Char) {c : Char}
    (hc : (trimCutset cut l).getLast? = some c) : decide (c ∈ cut) = false := by
  unfold trimCutset at hc
  exact getLast?_dropRightWhile_false _ _ hc

/-- Unfolding of the sanitizer pipeline for a non-empty input with the
default separator. -/
theorem sanitize_stages_eq (s : List Char) (o : SanitizationOptions) (hs : s ≠ [])
    (hsep : o.Separator = ['-']) :
    Sanitize s o =
      (trimCutset ['-']
        (sanTruncate o.MaxLength ['-']
          (if o.Lowercase then
            ((collapseRuns ['-']
              (repWsRuns ['-']
                (repAround '_' ['-']
                  (repAround '-' ['-']
                    (((if o.RemoveUmlauts then removeUmlauts (goTrimSpace s)
                        else goTrimSpace s).map slashToSpace).filter
                      (fun c => !isRemovedSpecial c)))))).filter
               (keepChar ['-'])).map goToLower
          else
            (collapseRuns ['-']
              (repWsRuns ['-']
                (repAround '_' ['-']
                  (repAround '-' ['-']
                    (((if o.RemoveUmlauts then removeUmlauts (goTrimSpace s)
                        else goTrimSpace s).map slashToSpace).filter
                      (fun c => !isRemovedSpecial c)))))).filter
               (keepChar ['-'])))).dropWhile (fun c => c.toNat == 46) := by
  unfold Sanitize
  rw [if_neg hs, hsep]
  rfl

theorem goTrimSpace_subset (l : List Char) : goTrimSpace l ⊆ l := by
  unfold goTrimSpace dropRightWhile
  intro x hx
  rw [List.mem_reverse] at hx
  have h1 := mem_of_mem_dropWhile hx
  rw [List.mem_reverse] at h1
  exact mem_of_mem_dropWhile h1

/-- The sanitizer never introduces a dot: a dot-free input yields a dot-free
output (default separator). -/
theorem sanitize_no_dot (s : List Char) (o : SanitizationOptions)
    (hsep : o.Separator = ['-']) (hs46 : ∀ c ∈ s, c.toNat ≠ 46) :
    ∀ c ∈ Sanitize s o, c.toNat ≠ 46 := by
  rcases eq_or_ne s [] with rfl | hs
  · intro c hcc
    exact absurd hcc (by simp [show Sanitize [] o = [] from rfl])
  · rw [sanitize_stages_eq s o hs hsep]
    set c1 := goTrimSpace s with hc1
    set c2 := if o.RemoveUmlauts then removeUmlauts c1 else c1 with hc2
    set c3 := (c2.map slashToSpace).filter (fun c => !isRemovedSpecial c) with hc3
    set c4 := repAround '-' ['-'] c3 with hc4
    set c5 := repAround '_' ['-'] c4 with hc5
    set c6 := repWsRuns ['-'] c5 with hc6
    set c7 := collapseRuns ['-'] c6 with hc7
    set c8 := c7.filter (keepChar ['-']) with hc8
    set c9 := if o.Lowercase then c8.map goToLower else c8 with hc9
    have d1 : ∀ c ∈ c1, c.toNat ≠ 46 := fun c hcc => hs46 c (goTrimSpace_subset s hcc)
    have d2 : ∀ c ∈ c2, c.toNat ≠ 46 := by
      rw [hc2]
      cases o.RemoveUmlauts
      · simpa using d1
      · simpa using removeUmlauts_no_dot d1
    have d3 : ∀ c ∈ c3, c.toNat ≠ 46 := by
      rw [hc3]
      intro c hcc
      obtain ⟨d, hd, rfl⟩ := List.mem_map.mp (List.mem_of_mem_filter hcc)
      unfold slashToSpace
      split
      · decide
      · exact d2 d hd
    have d4 : ∀ c ∈ c4, c.toNat ≠ 46 := by
      rw [hc4]
      unfold repAround
      intro c hcc
      rcases mem_repAroundGo _ _ _ _ c hcc with h | h
      · exact d3 c h
      · rw [List.mem_singleton] at h
        subst h
        decide
    have d5 : ∀ c ∈ c5, c.toNat ≠ 46 := by
      rw [hc5]
      unfold repAround
      intro c hcc
      rcases mem_repAroundGo _ _ _ _ c hcc with h | h
      · exact d4 c h
      · rw [List.mem_singleton] at h
        subst h
        decide
    have d6 : ∀ c ∈ c6, c.toNat ≠ 46 := by
      rw [hc6]
      unfold repWsRuns
      intro c hcc
      rcases mem_repWsRunsGo _ _ _ c hcc with h | h
      · exact d5 c h
      · rw [List.mem_singleton] at h
        subst h
        decide
    have d7 : ∀ c ∈ c7, c.toNat ≠ 46 := by
      rw [hc7]
      unfold collapseRuns
      intro c hcc
      rcases mem_collapseRunsGo _ _ _ c hcc with h | h
      · exact d6 c h
      · rw [List.mem_singleton] at h
        subst h
        decide
    have d8 : ∀ c ∈ c8, c.toNat ≠ 46 := by
      rw [hc8]
      exact fun c hcc => d7 c (List.mem_of_mem_filter hcc)
    have d9 : ∀ c ∈ c9, c.toNat ≠ 46 := by
      rw [hc9]
      cases o.Lowercase
      · simpa using d8
      · simp only [if_pos rfl]
        intro c hcc
        obtain ⟨d, hd, rfl⟩ := List.mem_map.mp (by simpa using hcc)
        exact goToLower_toNat_ne_46 (d8 d hd)
    intro c hcc
    exact d9 c (sanTruncate_subset _ _ _ (trimCutset_subset _ _ (mem_of_mem_dropWhile hcc)))

theorem isAlnumDash_arith {c : Char} (h : isAlnumDash c = true) :
    (97 ≤ c.toNat ∧ c.toNat ≤ 122) ∨ (65 ≤ c.toNat ∧ c.toNat ≤ 90) ∨
    (48 ≤ c.toNat ∧ c.toNat ≤ 57) ∨ c.toNat = 45 := by
  simp only [isAlnumDash, isAsciiAlnum, isAsciiLower, isAsciiUpper, isAsciiDigit,
    Bool.or_eq_true, Bool.and_eq_true, decide_eq_true_eq, beq_iff_eq] at h
  tauto

theorem goContains_eq_false_of_all_ne {l : List Char} {a : Char} (p : List Char)
    (h : ∀ c ∈ l, c ≠ a) : goContains l (a :: p) = false := by
  induction l with
  | nil => rfl
  | cons c t ih =>
    show ((a :: p).isPrefixOf (c :: t) || goContains t (a :: p)) = false
    have h1 : (a == c) = false := by
      rw [beq_eq_false_iff_ne]
      exact fun he => h c (List.mem_cons_self c t) he.symm
    have h2 : (a :: p).isPrefixOf (c :: t) = (a == c && p.isPrefixOf t) := rfl
    rw [h2, h1, ih (fun d hd => h d (List.mem_cons_of_mem c hd))]
    rfl

theorem infix_of_goContains {l p : List Char} (h : goContains l p = true) : p <:+: l := by
  induction l with
  | nil =>
    cases p with
    | nil => exact List.infix_rfl
    | cons a q => exact Bool.noConfusion h
  | cons c t ih =>
    have he : goContains (c :: t) p = (p.isPrefixOf (c :: t) || goContains t p) := rfl
    rw [he, Bool.or_eq_true] at h
    rcases h with h | h
    · exact (List.isPrefixOf_iff_prefix.mp h).isInfix
    · exact List.infix_cons (ih h)

theorem goContains_double_false {l : List Char} {a : Char} (h1 : l.count a = 1) :
    goContains l [a, a] = false := by
  by_contra hcon
  rw [Bool.not_eq_false] at hcon
  have hin : [a, a] <:+: l := infix_of_goContains hcon
  have hle := hin.sublist.count_le a
  have h2 : ([a, a] : List Char).count a = 2 := by
    simp [List.count_cons]
  omega

theorem getLast?_append_of_ne_nil {l l' : List Char} (h : l' ≠ []) :
    (l ++ l').getLast? = l'.getLast? := by
  rw [List.getLast?_append]
  cases hx : l'.getLast? with
  | none => exact absurd (List.getLast?_eq_none_iff.mp hx) h
  | some c => rfl

/-- A branch name assembled as `type ++ "/" ++ ticket ++ "-" ++ title` from
letter/digit/hyphen type and ticket parts and a dot-free keep-class title part
passes every `ValidateName` check. -/
theorem validateName_none_of_parts (ty ti st' : List Char) (hty : ty ≠ []) (hti : ti ≠ [])
    (ha : ∀ c ∈ ty, isAlnumDash c = true) (hb : ∀ c ∈ ti, isAlnumDash c = true)
    (hkeep : ∀ c ∈ st', keepChar ['-'] c = true) (hnd : ∀ c ∈ st', c.toNat ≠ 46) :
    ValidateName (ty ++ '/' :: (ti ++ ['-'] ++ st')) = none := by
  obtain ⟨a, ty', rfl⟩ : ∃ a ty', ty = a :: ty' := by
    cases ty with
    | nil => exact absurd rfl hty
    | cons a t => exact ⟨a, t, rfl⟩
  have haa := isAlnumDash_arith (ha a (List.mem_cons_self a ty'))
  have hchars : ∀ c ∈ (a :: ty') ++ '/' :: (ti ++ ['-'] ++ st'),
      (97 ≤ c.toNat ∧ c.toNat ≤ 122) ∨ (65 ≤ c.toNat ∧ c.toNat ≤ 90) ∨
      (48 ≤ c.toNat ∧ c.toNat ≤ 57) ∨ c.toNat = 45 ∨ c.toNat = 47 := by
    intro c hcm
    rcases List.mem_append.mp hcm with h | h
    · have := isAlnumDash_arith (ha c h)
      omega
    · rcases List.mem_cons.mp h with rfl | h
      · right; right; right; right
        decide
      · rcases List.mem_append.mp h with h2 | h2
        · rcases List.mem_append.mp h2 with h3 | h3
          · have := isAlnumDash_arith (hb c h3)
            omega
          · rw [List.mem_singleton] at h3
            subst h3
            right; right; right; left
            decide
        · have hr := keepChar_dash_arith (hkeep c h2)
          have := hnd c h2
          omega
  have hhead : ((a :: ty') ++ '/' :: (ti ++ ['-'] ++ st')).head? = some a := rfl
  have hlast : ∀ c, ((a :: ty') ++ '/' :: (ti ++ ['-'] ++ st')).getLast? = some c →
      (97 ≤ c.toNat ∧ c.toNat ≤ 122) ∨ (65 ≤ c.toNat ∧ c.toNat ≤ 90) ∨
      (48 ≤ c.toNat ∧ c.toNat ≤ 57) ∨ c.toNat = 45 := by
    intro c hcc
    rcases st' with _ | ⟨b, u⟩
    · rw [getLast?_append_of_ne_nil (by simp), ← List.singleton_append,
        getLast?_append_of_ne_nil (by simp), List.append_nil,
        getLast?_append_of_ne_nil (by simp)] at hcc
      simp only [List.getLast?_singleton, Option.some_inj] at hcc
      subst hcc
      right; right; right
      decide
    · rw [getLast?_append_of_ne_nil (by simp), ← List.singleton_append,
        getLast?_append_of_ne_nil (by simp),
        getLast?_append_of_ne_nil (by simp)] at hcc
      have hcm : c ∈ (b :: u) := List.mem_of_mem_getLast? hcc
      have hr := keepChar_dash_arith (hkeep c hcm)
      have := hnd c hcm
      omega
  have hcount : ((a :: ty') ++ '/' :: (ti ++ ['-'] ++ st')).count '/' = 1 := by
    have hz1 : ((a :: ty') : List Char).count '/' = 0 := by
      rw [List.count_eq_zero]
      intro hm
      have := isAlnumDash_arith (ha '/' hm)
      have h47 : ('/' : Char).toNat = 47 := by decide
      omega
    have hz2 : (ti : List Char).count '/' = 0 := by
      rw [List.count_eq_zero]
      intro hm
      have := isAlnumDash_arith (hb '/' hm)
      have h47 : ('/' : Char).toNat = 47 := by decide
      omega
    have hz3 : (st' : List Char).count '/' = 0 := by
      rw [List.count_eq_zero]
      intro hm
      have := keepChar_dash_arith (hkeep '/' hm)
      have := hnd '/' hm
      have h47 : ('/' : Char).toNat = 47 := by decide
      omega
    have e1 : List.count '/' ((a :: ty') ++ '/' :: (ti ++ ['-'] ++ st'))
        = List.count '/' (a :: ty') + List.count '/' ('/' :: (ti ++ ['-'] ++ st')) :=
      List.count_append _ _ _
    have e2 : List.count '/' ('/' :: (ti ++ ['-'] ++ st'))
        = List.count '/' (ti ++ ['-'] ++ st') + 1 := by
      rw [List.count_cons]
      simp
    have e3 : List.count '/' (ti ++ ['-'] ++ st')
        = List.count '/' (ti ++ ['-']) + List.count '/' st' := List.count_append _ _ _
    have e4 : List.count '/' (ti ++ ['-'])
        = List.count '/' ti + List.count '/' ['-'] := List.count_append _ _ _
    have hz4 : List.count '/' (['-'] : List Char) = 0 := by decide
    omega
  have hne46 : ∀ c ∈ (a :: ty') ++ '/' :: (ti ++ ['-'] ++ st'), c ≠ '.' := by
    intro c hcm he
    have := hchars c hcm
    rw [he] at this
    have h46 : ('.' : Char).toNat = 46 := by decide
    omega
  unfold ValidateName
  rw [if_neg (by simp)]
  rw [if_neg (by
    rw [hhead]
    intro hcc
    have : a = '.' := by simpa using hcc
    rw [this] at haa
    have h46 : ('.' : Char).toNat = 46 := by decide
    omega)]
  rw [if_neg (by
    intro hcc
    have := hlast '.' hcc
    have h46 : ('.' : Char).toNat = 46 := by decide
    omega)]
  rw [if_neg (by
    have hf : goContains ((a :: ty') ++ '/' :: (ti ++ ['-'] ++ st')) (str "..") = false := by
      have hstr : str ".." = '.' :: ['.'] := rfl
      rw [hstr]
      exact goContains_eq_false_of_all_ne _ hne46
    rw [hf]
    simp)]
  rw [if_neg (by
    rw [hhead]
    intro hcc
    have : a = '/' := by simpa using hcc
    rw [this] at haa
    have h47 : ('/' : Char).toNat = 47 := by decide
    omega)]
  rw [if_neg (by
    intro hcc
    have := hlast '/' hcc
    have h47 : ('/' : Char).toNat = 47 := by decide
    omega)]
  rw [if_neg (by
    have hf : goContains ((a :: ty') ++ '/' :: (ti ++ ['-'] ++ st')) (str "//") = false := by
      have hstr : str "//" = ['/', '/'] := rfl
      rw [hstr]
      exact goContains_double_false hcount
    rw [hf]
    simp)]
  rw [if_neg (by
    have hf : ((a :: ty') ++ '/' :: (ti ++ ['-'] ++ st')).any reIsSpace = false := by
      rw [List.any_eq_false]
      intro c hcm
      rw [reIsSpace_false_of_arith (by have := hchars c hcm; omega)]
      simp
    rw [hf]
    simp)]
  rw [if_neg (by
    have hf : ((a :: ty') ++ '/' :: (ti ++ ['-'] ++ st')).any
        (fun c => c.toNat ≤ 31 || c.toNat == 127) = false := by
      rw [List.any_eq_false]
      intro c hcm
      have := hchars c hcm
      simp only [Bool.or_eq_true, decide_eq_true_eq, beq_iff_eq, not_or]
      omega
    rw [hf]
    simp)]
  rw [if_neg (by
    have hf : ((a :: ty') ++ '/' :: (ti ++ ['-'] ++ st')).any
        (fun c => c.toNat == 126 || c.toNat == 94 || c.toNat == 58 || c.toNat == 63 ||
          c.toNat == 42 || c.toNat == 91) = false := by
      rw [List.any_eq_false]
      intro c hcm
      have := hchars c hcm
      simp only [Bool.or_eq_true, beq_iff_eq, not_or]
      omega
    rw [hf]
    simp)]

/-- Structural properties of every sanitizer output (default separator):
its characters all lie in the keep class, it is a fixed point of lowering
when lowering was requested, it respects a positive length bound, it does not
end with the separator, and it does not start with a dot. -/
theorem sanitize_output_props (s : List Char) (o : SanitizationOptions)
    (hsep : o.Separator = ['-']) :
    (∀ c ∈ Sanitize s o, keepChar ['-'] c = true) ∧
    (o.Lowercase = true → ∀ c ∈ Sanitize s o, goToLower c = c) ∧
    (0 < o.MaxLength → ((Sanitize s o).length : Int) ≤ o.MaxLength) ∧
    (∀ c, (Sanitize s o).getLast? = some c → c ≠ '-') ∧
    (∀ c, (Sanitize s o).head? = some c → c.toNat ≠ 46) := by
  rcases eq_or_ne s [] with rfl | hs
  · have hnil : Sanitize [] o = [] := rfl
    refine ⟨by simp [hnil], by simp [hnil], ?_, by simp [hnil], by simp [hnil]⟩
    intro hml
    rw [hnil]
    simp only [List.length_nil, Nat.cast_zero]
    omega
  · have he : Sanitize s o =
        (trimCutset ['-']
          (sanTruncate o.MaxLength ['-']
            (if o.Lowercase then
              ((collapseRuns ['-']
                (repWsRuns ['-']
                  (repAround '_' ['-']
                    (repAround '-' ['-']
                      (((if o.RemoveUmlauts then removeUmlauts (goTrimSpace s)
                          else goTrimSpace s).map slashToSpace).filter
                        (fun c => !isRemovedSpecial c)))))).filter
                 (keepChar ['-'])).map goToLower
            else
              (collapseRuns ['-']
                (repWsRuns ['-']
                  (repAround '_' ['-']
                    (repAround '-' ['-']
                      (((if o.RemoveUmlauts then removeUmlauts (goTrimSpace s)
                          else goTrimSpace s).map slashToSpace).filter
                        (fun c => !isRemovedSpecial c)))))).filter
                 (keepChar ['-'])))).dropWhile (fun c => c.toNat == 46) := by
      unfold Sanitize
      rw [if_neg hs, hsep]
      rfl
    rw [he]
    set core :=
      (collapseRuns ['-']
        (repWsRuns ['-']
          (repAround '_' ['-']
            (repAround '-' ['-']
              (((if o.RemoveUmlauts then removeUmlauts (goTrimSpace s)
                  else goTrimSpace s).map slashToSpace).filter
                (fun c => !isRemovedSpecial c)))))).filter (keepChar ['-']) with hcore
    set y := if o.Lowercase then core.map goToLower else core with hy
    set z := sanTruncate o.MaxLength ['-'] y with hz
    set w := trimCutset ['-'] z with hw
    have hky : ∀ c ∈ y, keepChar ['-'] c = true := by
      intro c hc
      rw [hy] at hc
      cases hl : o.Lowercase with
      | false =>
        rw [hl, if_neg (by simp)] at hc
        exact List.of_mem_filter hc
      | true =>
        rw [hl, if_pos rfl] at hc
        obtain ⟨d, hd, rfl⟩ := List.mem_map.mp hc
        exact keepChar_dash_goToLower (List.of_mem_filter hd)
    have hsubw : ∀ c ∈ (w.dropWhile fun c => c.toNat == 46), c ∈ y := by
      intro c hc
      have h1 := mem_of_mem_dropWhile hc
      rw [hw] at h1
      have h2 := trimCutset_subset _ _ h1
      rw [hz] at h2
      exact sanTruncate_subset _ _ _ h2
    refine ⟨?_, ?_, ?_, ?_, ?_⟩
    · exact fun c hc => hky c (hsubw c hc)
    · intro hl c hc
      have h1 := hsubw c hc
      rw [hy, if_pos hl] at h1
      obtain ⟨d, hd, rfl⟩ := List.mem_map.mp h1
      exact goToLower_idem d
    · intro hml
      have h1 : ((w.dropWhile fun c => c.toNat == 46)).length ≤ w.length :=
        (List.dropWhile_sublist _).length_le
      have h2 : w.length ≤ z.length := by
        rw [hw]
        exact trimCutset_length_le _ _
      have h3 : (z.length : Int) ≤ o.MaxLength := by
        rw [hz]
        exact sanTruncate_length_le _ _ hml
      omega
    · intro c hc
      have hne : w.dropWhile (fun c => c.toNat == 46) ≠ [] := by
        intro hx
        rw [hx] at hc
        exact Option.noConfusion hc
      rw [getLast?_dropWhile_of_ne_nil _ _ hne] at hc
      have := getLast?_trimCutset_false ['-'] z (hw ▸ hc)
      simp only [List.mem_singleton, decide_eq_false_iff_not] at this
      exact this
    · intro c hc
      have := head?_dropWhile_false _ _ hc
      simpa using this

/-- C2 (amended): with the default separator `-`, sanitization is idempotent
at every input whose sanitized output neither begins with the separator nor
contains two consecutive separators (the two failure modes exhibited by the
counterexample). -/
theorem c2_conditional_idempotent (s : List Char) (o : SanitizationOptions)
    (hsep : o.Separator = ['-'])
    (hdouble : hasDouble '-' (Sanitize s o) = false)
    (hhead : (Sanitize s o).head? ≠ some '-') :
    Sanitize (Sanitize s o) o = Sanitize s o := by
  obtain ⟨hkeep, hidem, hlen, hlast, hheaddot⟩ := sanitize_output_props s o hsep
  rcases eq_or_ne (Sanitize s o) [] with hnil | hne
  · rw [hnil]
    rfl
  · set r := Sanitize s o with hr
    have hrange : ∀ c ∈ r, 45 ≤ c.toNat ∧ c.toNat ≤ 122 :=
      fun c hc => keepChar_dash_range (hkeep c hc)
    have hws : ∀ c ∈ r, reIsSpace c = false :=
      fun c hc => reIsSpace_false_of_arith (hrange c hc)
    have h1 : goTrimSpace r = r :=
      goTrimSpace_eq_self (fun c hc => goIsSpace_false_of_arith (hrange c hc))
    have h2 : (if o.RemoveUmlauts then removeUmlauts r else r) = r := by
      cases o.RemoveUmlauts
      · rfl
      · exact removeUmlauts_eq_self (fun c hc => by have := hrange c hc; omega)
    have h3 : r.map slashToSpace = r := by
      rw [List.map_congr_left
        (g := id)
        (fun c hc => by
          have ha := keepChar_dash_arith (hkeep c hc)
          exact slashToSpace_eq_self_of_arith (by omega)),
        List.map_id]
    have h4 : r.filter (fun c => !isRemovedSpecial c) = r :=
      List.filter_eq_self.mpr (fun c hc => by
        rw [isRemovedSpecial_false_of_keep (hkeep c hc)]
        rfl)
    have h5 : repAround '-' ['-'] r = r := by
      unfold repAround
      exact repAroundGo_eq_self _ _ _ r hws (fun c _ _ => rfl)
    have h6 : repAround '_' ['-'] r = r := by
      unfold repAround
      refine repAroundGo_eq_self _ _ _ r hws (fun c hc hcp => ?_)
      exfalso
      have ha := keepChar_dash_arith (hkeep c hc)
      rw [hcp] at ha
      have h95 : ('_' : Char).toNat = 95 := by decide
      omega
    have h7 : repWsRuns ['-'] r = r := by
      unfold repWsRuns
      exact repWsRunsGo_eq_self _ _ r hws
    have h8 : collapseRuns ['-'] r = r := by
      unfold collapseRuns
      exact collapseRunsGo_eq_self _ _ r hdouble
    have h9 : r.filter (keepChar ['-']) = r := List.filter_eq_self.mpr hkeep
    have h10 : (if o.Lowercase then r.map goToLower else r) = r := by
      cases hl : o.Lowercase with
      | false => rw [if_neg (by simp)]
      | true =>
        rw [if_pos rfl, List.map_congr_left (g := id) (fun c hc => hidem hl c hc), List.map_id]
    have h11 : sanTruncate o.MaxLength ['-'] r = r := by
      unfold sanTruncate
      rw [if_neg]
      intro hcon
      have := hlen hcon.1
      omega
    have h12 : trimCutset ['-'] r = r := by
      refine trimCutset_eq_self _ _ (fun c hc => ?_) (fun c hc => ?_)
      · simp only [List.mem_singleton, decide_eq_false_iff_not]
        intro he
        exact hhead (he ▸ hc)
      · simp only [List.mem_singleton, decide_eq_false_iff_not]
        exact hlast c hc
    have h13 : r.dropWhile (fun c => c.toNat == 46) = r :=
      dropWhile_eq_self_of_head _ _ (fun c hc => by
        have := hheaddot c hc
        simpa using this)
    show Sanitize r o = r
    unfold Sanitize
    rw [if_neg hne, hsep]
    show (trimCutset (if ['-'] = ([] : List Char) then ['-'] else ['-'])
        (sanTruncate o.MaxLength (if ['-'] = ([] : List Char) then ['-'] else ['-'])
          (if o.Lowercase then
            ((collapseRuns (if ['-'] = ([] : List Char) then ['-'] else ['-'])
              (repWsRuns (if ['-'] = ([] : List Char) then ['-'] else ['-'])
                (repAround '_' (if ['-'] = ([] : List Char) then ['-'] else ['-'])
                  (repAround '-' (if ['-'] = ([] : List Char) then ['-'] else ['-'])
                    (((if o.RemoveUmlauts then removeUmlauts (goTrimSpace r)
                        else goTrimSpace r).map slashToSpace).filter
                      (fun c => !isRemovedSpecial c)))))).filter
               (keepChar (if ['-'] = ([] : List Char) then ['-'] else ['-']))).map goToLower
          else
            (collapseRuns (if ['-'] = ([] : List Char) then ['-'] else ['-'])
              (repWsRuns (if ['-'] = ([] : List Char) then ['-'] else ['-'])
                (repAround '_' (if ['-'] = ([] : List Char) then ['-'] else ['-'])
                  (repAround '-' (if ['-'] = ([] : List Char) then ['-'] else ['-'])
                    (((if o.RemoveUmlauts then removeUmlauts (goTrimSpace r)
                        else goTrimSpace r).map slashToSpace).filter
                      (fun c => !isRemovedSpecial c)))))).filter
               (keepChar (if ['-'] = ([] : List Char) then ['-'] else ['-']))))).dropWhile
        (fun c => c.toNat == 46) = r
    rw [show (if ['-'] = ([] : List Char) then ['-'] else ['-']) = ['-'] from ite_self _]
    rw [h1, h2, h3, h4, h5, h6, h7, h8, h9, h10, h11, h12, h13]

/-- Witness for the amended C2 at a concrete input whose output is clean. -/
theorem c2_conditional_idempotent_witness :
    Sanitize (Sanitize (str "Hello World") (SanitizationOptions.mk (str "-") true true 0))
        (SanitizationOptions.mk (str "-") true true 0) =
      Sanitize (str "Hello World") (SanitizationOptions.mk (str "-") true true 0) :=
  c2_conditional_idempotent (str "Hello World") (SanitizationOptions.mk (str "-") true true 0)
    (by decide) (by decide) (by decide)

/-! ### Generator theorems -/

/-- C1 counterexample: for the non-empty type `feature`, ticket `STR-123` and
title `a.`, the generated name `feature/STR-123-a.` ends in a dot and is
rejected by `ValidateName`, so generation does not always validate. -/
theorem c1_counterexample :
    (ValidateName (GenerateNameWithConfig (BranchInfo.mk (str "feature") (str "STR-123")
        (str "a.") [] []) (GeneratorConfig.mk 60 (str "-") true true))).isSome = true ∧
    str "feature" ≠ [] ∧ str "STR-123" ≠ [] := by decide

/-- C1 (amended): when the type and ticket id are non-empty and consist only
of ASCII letters, digits and hyphens, the title contains no dot character,
and the separator is the default `-`, the generated branch name always passes
`ValidateName`.  The counterexample shows generation can otherwise emit names
`ValidateName` rejects (a title ending in a dot), so the claim as stated over
all inputs is false. -/
theorem c1_amended (info : BranchInfo) (config : GeneratorConfig)
    (hty : info.Type' ≠ []) (hti : info.TicketID ≠ [])
    (ha : ∀ c ∈ info.Type', isAlnumDash c = true)
    (hb : ∀ c ∈ info.TicketID, isAlnumDash c = true)
    (htl : ∀ c ∈ info.Title, c.toNat ≠ 46)
    (hsep : config.Separator = ['-']) :
    ValidateName (GenerateNameWithConfig info config) = none := by
  unfold GenerateNameWithConfig
  rw [if_neg (by rintro (h | h); exacts [hty h, hti h])]
  rw [hsep]
  dsimp only
  rcases eq_or_ne info.Title [] with htt | htt
  · rw [if_pos htt]
    have hk := (sanitize_output_props info.TicketID
      (SanitizationOptions.mk ['-'] config.Lowercase config.RemoveUmlauts
        (availableTitleLength info config)) rfl).1
    have h46 := sanitize_no_dot info.TicketID
      (SanitizationOptions.mk ['-'] config.Lowercase config.RemoveUmlauts
        (availableTitleLength info config)) rfl
      (fun c hcc => by have := isAlnumDash_arith (hb c hcc); omega)
    split_ifs with hl1 hl2 hl3
    · exact validateName_none_of_parts _ _ _ hty hti ha hb
        (fun c hcc => hk c (List.take_subset _ _ (trimSuffixList_subset _ _ hcc)))
        (fun c hcc => h46 c (List.take_subset _ _ (trimSuffixList_subset _ _ hcc)))
    · exact validateName_none_of_parts _ _ _ hty hti ha hb hk h46
    · exact validateName_none_of_parts _ _ _ hty hti ha hb hk h46
    · exact validateName_none_of_parts _ _ _ hty hti ha hb hk h46
  · rw [if_neg htt]
    have hk := (sanitize_output_props info.Title
      (SanitizationOptions.mk ['-'] config.Lowercase config.RemoveUmlauts
        (availableTitleLength info config)) rfl).1
    have h46 := sanitize_no_dot info.Title
      (SanitizationOptions.mk ['-'] config.Lowercase config.RemoveUmlauts
        (availableTitleLength info config)) rfl htl
    split_ifs with hl1 hl2 hl3
    · exact validateName_none_of_parts _ _ _ hty hti ha hb
        (fun c hcc => hk c (List.take_subset _ _ (trimSuffixList_subset _ _ hcc)))
        (fun c hcc => h46 c (List.take_subset _ _ (trimSuffixList_subset _ _ hcc)))
    · exact validateName_none_of_parts _ _ _ hty hti ha hb hk h46
    · exact validateName_none_of_parts _ _ _ hty hti ha hb hk h46
    · exact validateName_none_of_parts _ _ _ hty hti ha hb hk h46

/-- Witness for the amended C1 at concrete inputs. -/
theorem c1_amended_witness :
    ValidateName (GenerateNameWithConfig (BranchInfo.mk (str "feature") (str "STR-123")
        (str "add login") [] []) (GeneratorConfig.mk 60 (str "-") true true)) = none :=
  c1_amended (BranchInfo.mk (str "feature") (str "STR-123") (str "add login") [] [])
    (GeneratorConfig.mk 60 (str "-") true true)
    (by decide) (by decide) (by decide) (by decide) (by decide) (by decide)

/-- C7: with an empty title the sanitized ticket id is substituted as the
title source, and in particular
`Generate("feature", "STR-123", "", {60, "-", lowercase})` yields
`feature/STR-123-str-123` (for either umlaut-folding setting). -/
theorem c7_empty_title_uses_ticket (info : BranchInfo) (config : GeneratorConfig)
    (h : info.Title = []) :
    GenerateNameWithConfig info config =
      GenerateNameWithConfig { info with Title := info.TicketID } config ∧
    GenerateNameWithConfig (BranchInfo.mk (str "feature") (str "STR-123") [] [] [])
        (GeneratorConfig.mk 60 (str "-") true false) = str "feature/STR-123-str-123" ∧
    GenerateNameWithConfig (BranchInfo.mk (str "feature") (str "STR-123") [] [] [])
        (GeneratorConfig.mk 60 (str "-") true true) = str "feature/STR-123-str-123" := by
  refine ⟨?_, by decide, by decide⟩
  obtain ⟨ty, ti, ttl, bb, fn⟩ := info
  cases h
  simp [GenerateNameWithConfig, prefixLength, availableTitleLength]

/-- Witness for C7 at concrete inputs. -/
theorem c7_empty_title_uses_ticket_witness :
    GenerateNameWithConfig (BranchInfo.mk (str "feature") (str "STR-123") [] [] [])
        (GeneratorConfig.mk 60 (str "-") true false) =
      GenerateNameWithConfig (BranchInfo.mk (str "feature") (str "STR-123") (str "STR-123") [] [])
        (GeneratorConfig.mk 60 (str "-") true false) :=
  (c7_empty_title_uses_ticket (BranchInfo.mk (str "feature") (str "STR-123") [] [] [])
    (GeneratorConfig.mk 60 (str "-") true false) rfl).1

/-- C8: the title budget is `maxBranchLength - (len(type) + 1 + len(ticket) +
len(separator))` clamped to the floor 10 when below 1, and consequently a
generated name can exceed `maxBranchLength` (here length 23 against a limit
of 5, with non-empty type and ticket). -/
theorem c8_budget_floor (info : BranchInfo) (config : GeneratorConfig) :
    availableTitleLength info config =
      (if config.MaxBranchLength -
          ((info.Type'.length : Int) + 1 + info.TicketID.length + config.Separator.length) < 1
       then 10
       else config.MaxBranchLength -
          ((info.Type'.length : Int) + 1 + info.TicketID.length + config.Separator.length)) ∧
    (5 : Int) <
      ((GenerateNameWithConfig (BranchInfo.mk (str "feature") (str "STR-123") [] [] [])
          (GeneratorConfig.mk 5 (str "-") true false)).length : Int) ∧
    str "feature" ≠ [] ∧ str "STR-123" ≠ [] := by
  exact ⟨rfl, by decide, by decide, by decide⟩

/-- C2 counterexample: sanitization is not idempotent.  With the default
separator `-`, trimming leading dots can expose a leading separator
(`.-abc` sanitizes to `-abc`, which re-sanitizes to `abc`), and deleting a
disallowed character after separator collapsing can create a double separator
(`a-é-b` sanitizes to `a--b`, which re-sanitizes to `a-b`). -/
theorem c2_counterexample :
    Sanitize (Sanitize (str ".-abc") (SanitizationOptions.mk (str "-") false false 0))
        (SanitizationOptions.mk (str "-") false false 0) ≠
      Sanitize (str ".-abc") (SanitizationOptions.mk (str "-") false false 0) ∧
    Sanitize (Sanitize (str "a-é-b") (SanitizationOptions.mk (str "-") false false 0))
        (SanitizationOptions.mk (str "-") false false 0) ≠
      Sanitize (str "a-é-b") (SanitizationOptions.mk (str "-") false false 0) := by
  decide

end JiraFlow
